import Mathlib

set_option maxHeartbeats 1000000

namespace MarvinBlum

/- Shallow embedding of the blog content cache in blog.go of
   Kugelschieber/marvinblum.de.  Article bodies are lists of characters;
   instants of time and years are integers. -/

/-- ASCII case-insensitive match of a pattern at the head of a string,
modelling the `(?i)` flag of the Go regular expressions in blog.go. -/
def ciStarts : List Char → List Char → Bool
  | [], _ => true
  | _ :: _, [] => false
  | p :: ps, c :: cs => (c.toLower == p.toLower) && ciStarts ps cs

/-- Case-insensitive equality of two character lists. -/
def ciEqList : List Char → List Char → Bool
  | [], [] => true
  | a :: as, b :: bs => (a.toLower == b.toLower) && ciEqList as bs
  | _, _ => false

/-- Literal match of a pattern at the head of a string. -/
def litStarts : List Char → List Char → Bool
  | [], _ => true
  | _ :: _, [] => false
  | p :: ps, c :: cs => (c == p) && litStarts ps cs

/-- Containment of a literal substring; used to state properties about
occurrences of `/read/` and `/api/v1/content/` in rewritten markup. -/
def hasSub : List Char → List Char → Bool
  | [], pat => pat.isEmpty
  | c :: t, pat => litStarts pat (c :: t) || hasSub t pat

/-- The fixed text matched by `linkRegex` before the capture group:
`linkRegex = (?iU)href="/read/([^"]+)"`. -/
def linkPat : List Char := "href=\"/read/".toList

/-- Replacement text produced for a link match, from the template
`href="/blog/$1"` at line 397 of the source. -/
def blogRepl (abc : List Char) : List Char := "href=\"/blog/".toList ++ abc ++ ['"']

/-- Matcher for `linkRegex` at the head of the input: when the regex matches at
position 0, returns the capture group `([^"]+)`. -/
def tryMatchLink (s : List Char) : Option (List Char) :=
  if ciStarts linkPat s then
    match (s.drop 12).takeWhile (fun c => c ≠ '"'), (s.drop 12).dropWhile (fun c => c ≠ '"') with
    | [], _ => none
    | _, [] => none
    | abc, _ :: _ => some abc
  else none

/-- Fuelled scanner implementing `linkRegex.ReplaceAllString` (leftmost,
non-overlapping matches, each replaced by the `href="/blog/$1"` template). -/
def scanLinksF : Nat → List Char → List Char
  | 0, s => s
  | _ + 1, [] => []
  | fuel + 1, c :: rest =>
    match tryMatchLink (c :: rest) with
    | some abc => blogRepl abc ++ scanLinksF fuel (rest.drop (12 + abc.length))
    | none => c :: scanLinksF fuel rest

/-- `linkRegex.ReplaceAllString content (href="/blog/$1")`, line 397. -/
def scanLinks (s : List Char) : List Char := scanLinksF s.length s

/-- The literal middle part of the attachment regexes. -/
def contentPat : List Char := "/api/v1/content/".toList

/-- Matcher for the tail `([^"]+)"` of the attachment regexes: the filename
capture group followed by the closing quote. -/
def matchG3 (r : List Char) : Option (List Char × List Char) :=
  match r.takeWhile (fun c => c ≠ '"'), r.dropWhile (fun c => c ≠ '"') with
  | [], _ => none
  | _, [] => none
  | g3, _ :: rest => some (g3, rest)

/-- One candidate split for the lazy group `([^"]+)` of the attachment
regexes: succeeds when the group (`acc`) is nonempty and the remaining text
starts with `/api/v1/content/` followed by a valid filename group. -/
def splitHere (acc r : List Char) : Option (List Char × List Char × List Char) :=
  match acc, (if ciStarts contentPat r then matchG3 (r.drop 16) else none) with
  | [], _ => none
  | _ :: _, some (g3, rest) => some (acc, g3, rest)
  | _ :: _, none => none

/-- Lazy search (shortest first, with backtracking) for the split point of
`([^"]+)/api/v1/content/([^"]+)"`; the group never crosses a quote. -/
def findSplit : List Char → List Char → Option (List Char × List Char × List Char)
  | _, [] => none
  | acc, c :: r =>
    match splitHere acc (c :: r) with
    | some res => some res
    | none => if c = '"' then none else findSplit (acc ++ [c]) r

/-- Try one alternative of `(href|src)` followed by `="` and the group split;
returns the matched group-1 text (case preserved), group 2, group 3 and the
rest of the input after the match. -/
def tryTag (tag s : List Char) : Option (List Char × List Char × List Char × List Char) :=
  if ciStarts tag s then
    match s.drop tag.length with
    | c1 :: c2 :: r =>
      if c1 = '=' then
        if c2 = '"' then
          match findSplit [] r with
          | some (g2, g3, rest) => some (s.take tag.length, g2, g3, rest)
          | none => none
        else none
      else none
    | _ => none
  else none

/-- Matcher for `attachmentRegex = (?iU)(href|src)="([^"]+)/api/v1/content/([^"]+)"`
at the head of the input (the `href` alternative is tried first). -/
def matchAttachAt (s : List Char) : Option (List Char × List Char × List Char × List Char) :=
  match tryTag ("href".toList) s with
  | some res => some res
  | none => tryTag ("src".toList) s

/-- Replacement text for an attachment match, from the template
`$1="/static/blog/%s/$3"` at line 398 of the source. -/
def staticRepl (id g1 g3 : List Char) : List Char :=
  g1 ++ "=\"/static/blog/".toList ++ id ++ '/' :: (g3 ++ ['"'])

/-- Fuelled scanner implementing `attachmentRegex.ReplaceAllString`. -/
def scanAttachF : Nat → List Char → List Char → List Char
  | 0, _, s => s
  | _ + 1, _, [] => []
  | fuel + 1, id, c :: rest =>
    match matchAttachAt (c :: rest) with
    | some (g1, _, g3, rest') => staticRepl id g1 g3 ++ scanAttachF fuel id rest'
    | none => c :: scanAttachF fuel id rest

/-- `attachmentRegex.ReplaceAllString content ($1="/static/blog/id/$3")`, line 398. -/
def scanAttach (id s : List Char) : List Char := scanAttachF s.length id s

/-- Fuelled scanner implementing `attachmentURLRegex.FindAllStringSubmatch`:
collects, left to right and non-overlapping, the pairs (group 2 including the
trailing `/api/v1/content/`, group 3) of every match. -/
def scanAttachURLF : Nat → List Char → List (List Char × List Char)
  | 0, _ => []
  | _ + 1, [] => []
  | fuel + 1, c :: rest =>
    match matchAttachAt (c :: rest) with
    | some (_, g2, g3, rest') => (g2 ++ contentPat, g3) :: scanAttachURLF fuel rest'
    | none => scanAttachURLF fuel rest

/-- All submatches of `attachmentURLRegex` in a body, line 411. -/
def scanAttachURL (s : List Char) : List (List Char × List Char) := scanAttachURLF s.length s

/-- `emvi.ArticleContent`: the fields the blog component reads or writes. -/
structure ArticleContent where
  languageId : String
  title : String
  content : List Char
deriving DecidableEq, Repr

/-- `emvi.Article`: identifier, publication year (the only part of the
`Published` timestamp the component uses, via `Published.Year()`), and the
`LatestArticleContent` pointer (`none` models a nil pointer). -/
structure Article where
  id : String
  publishedYear : Int
  latestArticleContent : Option ArticleContent
deriving DecidableEq, Repr

/-- The zero value `emvi.Article{}` returned by a lookup of an absent key in
the Go map; the year of the zero `time.Time` is 1. -/
def zeroArticle : Article := { id := "", publishedYear := 1, latestArticleContent := none }

/-- The association-list model of the Go map `map[string]emvi.Article`
(iteration order of a Go map is arbitrary; theorems hold for any order). -/
abbrev ArticleMap := List (String × Article)

/-- Go map update `m[k] = v`: replace in place or append. -/
def insertA : ArticleMap → String → Article → ArticleMap
  | [], k, v => [(k, v)]
  | (k', v') :: t, k, v => if k' = k then (k, v) :: t else (k', v') :: insertA t k v

/-- Go map read `m[k]` as an `Option`. -/
def lookupA : ArticleMap → String → Option Article
  | [], _ => none
  | (k', v') :: t, k => if k' = k then some v' else lookupA t k

/-- The year index `map[int][]emvi.Article`. -/
abbrev YearMap := List (Int × List Article)

/-- Go map read on the year index. -/
def lookupY : YearMap → Int → Option (List Article)
  | [], _ => none
  | (y', vs) :: t, y => if y' = y then some vs else lookupY t y

/-- One step of the year-index construction at lines 441-447: append the
article to the bucket of its publication year (creating the bucket first when
absent, which `append` to the empty bucket also models). -/
def bucketAppend : YearMap → Int → Article → YearMap
  | [], y, a => [(y, [a])]
  | (y', vs) :: t, y, a =>
    if y' = y then (y', vs ++ [a]) :: t else (y', vs) :: bucketAppend t y a

/-- The year index rebuilt from an id index, lines 439-447 of `setArticles`. -/
def buildYear (m : ArticleMap) : YearMap :=
  m.foldl (fun acc p => bucketAppend acc p.2.publishedYear p.2) []

/-- The remote emvi collaborator: the successive responses of the paginated
`FindArticles` listing (`none` is a failed page fetch; after the list is
exhausted the server reports no further results), and the per-article
`GetArticle` content fetch keyed by id and language (`none` is a failure). -/
structure Remote where
  pages : List (Option (List Article))
  getArticle : String → String → Option ArticleContent

/-- The cache state: `blog.articles`, `blog.articlesYear`, `blog.nextUpdate`. -/
structure Blog where
  articles : ArticleMap
  articlesYear : YearMap
  nextUpdate : Int
deriving Repr

/-- Accumulate one listing page into the id index, line 370-372:
`articles[article.Id] = article`. -/
def insertAll (m : ArticleMap) (page : List Article) : ArticleMap :=
  page.foldl (fun m a => insertA m a.id a) m

/-- The pagination loop of `loadArticles`, lines 354-373: accumulate pages
until an empty page (success) or a failed fetch (the error flag is true and
the loop breaks). -/
def fetchPages : List (Option (List Article)) → ArticleMap → ArticleMap × Bool
  | [], acc => (acc, false)
  | none :: _, acc => (acc, true)
  | some page :: rest, acc =>
    if page.isEmpty then (insertAll acc page, false)
    else fetchPages rest (insertAll acc page)

/-- `blog.loadArticle`, lines 388-401: fetch the content by id and language
(`article.LatestArticleContent.LanguageId`; an absent pointer is modelled as
the empty language), return nil on failure, otherwise rewrite links and
attachment references.  The attachment downloads (line 396) are modelled
separately by `downloadActions` since they never change the indexes. -/
def loadArticle (r : Remote) (a : Article) : Option ArticleContent :=
  match r.getArticle a.id ((a.latestArticleContent.map (fun c => c.languageId)).getD "") with
  | none => none
  | some c =>
    some { c with content := scanAttach a.id.toList (scanLinks c.content) }

/-- The content-enrichment loop of `loadArticles`, lines 376-379: every map
entry is rewritten in place with the fetched-and-rewritten content. -/
def ingest (r : Remote) (m : ArticleMap) : ArticleMap :=
  m.map (fun p => (p.1, { p.2 with latestArticleContent := loadArticle r p.2 }))

/-- `blog.setArticles`, lines 437-448: install the id index and rebuild the
year index from it. -/
def setArticles (b : Blog) (m : ArticleMap) : Blog :=
  { b with articles := m, articlesYear := buildYear m }

/-- `time.Hour` as the cache interval `blogCacheTime`, in seconds. -/
def blogCacheTime : Int := 3600

/-- `blog.loadArticles`, lines 349-386, with `endTime` the value of
`time.Now()` at line 384: on a listing failure nothing but the deadline
changes; on success the enriched index is installed; the deadline is always
set to `endTime + blogCacheTime`. -/
def loadArticles (r : Remote) (endTime : Int) (b : Blog) : Blog :=
  let fetched := fetchPages r.pages []
  let b' := if fetched.2 then b else setArticles b (ingest r fetched.1)
  { b' with nextUpdate := endTime + blogCacheTime }

/-- `blog.refreshIfRequired`, lines 450-454: refresh exactly when
`blog.nextUpdate.Before(time.Now())`, that is when the deadline is strictly
earlier than the current time.  The boolean records whether `loadArticles`
was invoked. -/
def refreshIfRequired (r : Remote) (now : Int) (b : Blog) : Blog × Bool :=
  if b.nextUpdate < now then (loadArticles r now b, true) else (b, false)

/-- `blog.GetArticle`, lines 322-325: refresh check, then a Go map read
(the zero article when absent).  Returns the result, the new state, and
whether a refresh attempt ran. -/
def GetArticle (r : Remote) (now : Int) (b : Blog) (id : String) : Article × Blog × Bool :=
  let rb := refreshIfRequired r now b
  ((lookupA rb.1.articles id).getD zeroArticle, rb.1, rb.2)

/-- `blog.GetArticles`, lines 327-330. -/
def GetArticles (r : Remote) (now : Int) (b : Blog) : YearMap × Blog × Bool :=
  let rb := refreshIfRequired r now b
  (rb.1.articlesYear, rb.1, rb.2)

/-- `maxLatestArticles = 3`, line 289. -/
def maxLatestArticles : Nat := 3

/-- The collection loop of `GetLatestArticles`, lines 334-344: append the
entry, increment `i`, and break once `i > maxLatestArticles`. -/
def latestLoop : ArticleMap → Nat → List Article
  | [], _ => []
  | (_, v) :: t, i =>
    if i + 1 > maxLatestArticles then [v] else v :: latestLoop t (i + 1)

/-- `blog.GetLatestArticles`, lines 332-347. -/
def GetLatestArticles (r : Remote) (now : Int) (b : Blog) : List Article × Blog × Bool :=
  let rb := refreshIfRequired r now b
  (latestLoop rb.1.articles 0, rb.1, rb.2)

/-- `blog.NewBlog`, lines 305-320: a fresh state (nil maps, deadline
`t + blogCacheTime`) immediately refreshed by `loadArticles`, which
overwrites the deadline again. -/
def NewBlog (r : Remote) (t : Int) : Blog :=
  loadArticles r t { articles := [], articlesYear := [], nextUpdate := t + blogCacheTime }

/-- The per-article, per-attachment download and disk-write actions of
`blog.downloadAttachments`, lines 403-435: every submatch of
`attachmentURLRegex` leads to an `http.Get` of groups 2++3 and a write of the
file named by group 3.  The function inspects the disk only to create the
per-article directory (lines 404-409); it never consults `disk` to decide
whether a file is already present, so the action list is independent of
`disk`. -/
def downloadActions (id : String) (content : List Char) (disk : List (String × List Char)) :
    List (List Char × String × List Char) :=
  match disk with
  | _ => (scanAttachURL content).map (fun p => (p.1 ++ p.2, id, p.2))

/-- States of the cache reachable through the public interface: created by
`NewBlog` and transformed by the three read operations. -/
inductive Reachable (r : Remote) : Blog → Prop
  | new (t : Int) : Reachable r (NewBlog r t)
  | getArticle (b : Blog) (now : Int) (id : String) :
      Reachable r b → Reachable r (GetArticle r now b id).2.1
  | getArticles (b : Blog) (now : Int) :
      Reachable r b → Reachable r (GetArticles r now b).2.1
  | getLatest (b : Blog) (now : Int) :
      Reachable r b → Reachable r (GetLatestArticles r now b).2.1

/-- The pagination loop ends with a non-nil error. -/
def fetchFails (r : Remote) : Prop := (fetchPages r.pages []).2 = true

/-- Keys of the id index. -/
def keysOf (m : ArticleMap) : List String := m.map Prod.fst

/-- Years of the year index. -/
def yearsOf (m : YearMap) : List Int := m.map Prod.fst

/-- The id index is a well-formed Go map keyed by the articles' own ids:
keys are unique and every entry's key is its article's `Id` field. -/
def goodMap (m : ArticleMap) : Prop :=
  (keysOf m).Nodup ∧ ∀ p ∈ m, p.1 = p.2.id

/-- Mutual consistency of the two indexes: the id index is keyed by id with
unique keys, year buckets carry distinct years, every article of the id index
is in the bucket of its publication year, and every member of a year bucket
has that publication year and is in the id index under its id. -/
def Consistent (b : Blog) : Prop :=
  goodMap b.articles ∧
  (yearsOf b.articlesYear).Nodup ∧
  (∀ k a, lookupA b.articles k = some a →
    ∃ ys, lookupY b.articlesYear a.publishedYear = some ys ∧ a ∈ ys) ∧
  (∀ y ys, lookupY b.articlesYear y = some ys →
    ∀ a ∈ ys, a.publishedYear = y ∧ lookupA b.articles a.id = some a)

/-- A remote whose listing immediately reports no results and whose content
fetches fail. -/
def r0 : Remote := { pages := [], getArticle := fun _ _ => none }

/-- A remote whose first listing page fetch fails. -/
def rFail : Remote := { pages := [none], getArticle := fun _ _ => none }

/-- A bare article fixture. -/
def mkArt (i : String) (y : Int) : Article :=
  { id := i, publishedYear := y, latestArticleContent := none }

/-- A one-article cache whose refresh deadline is the instant 5. -/
def bCex : Blog :=
  { articles := [("a", mkArt "a" 2020)],
    articlesYear := [(2020, [mkArt "a" 2020])],
    nextUpdate := 5 }

/-- A four-article cache with a distant refresh deadline. -/
def b4 : Blog :=
  { articles := [("a", mkArt "a" 2020), ("b", mkArt "b" 2020),
                 ("c", mkArt "c" 2021), ("d", mkArt "d" 2022)],
    articlesYear := buildYear [("a", mkArt "a" 2020), ("b", mkArt "b" 2020),
                 ("c", mkArt "c" 2021), ("d", mkArt "d" 2022)],
    nextUpdate := 100 }

/-- Membership of an article in the year bucket of a given year. -/
def inY (ym : YearMap) (y : Int) (a : Article) : Prop :=
  ∃ ys, lookupY ym y = some ys ∧ a ∈ ys

/-- A remote with one successful two-article listing page, whose content
fetch succeeds for article `b` and fails for article `a`. -/
def r1 : Remote :=
  { pages := [some [mkArt "a" 2020, mkArt "b" 2020]],
    getArticle := fun i _ =>
      if i = "b" then some { languageId := "en", title := "T", content := "x".toList }
      else none }

/-- A body already mirrored on disk as file `f.png` of article `A`. -/
def cexContent : List Char := "<img src=\"https://h/api/v1/content/f.png\">".toList

/-- A disk state that already holds attachment `f.png` of article `A`. -/
def cexDisk : List (String × List Char) := [("A", "f.png".toList)]

/-- A body with one internal link and one textual occurrence of `/read/`
outside any `href` attribute. -/
def c6content : List Char := "<a href=\"/read/abc\">x</a> /read/b".toList

/-- A body with one attachment reference inside a `src` attribute and one
textual remote-endpoint URL outside any attribute. -/
def c7content : List Char :=
  "<img src=\"https://h/api/v1/content/a.png\"> see https://h/api/v1/content/b.png".toList

/-- C1. A failed paginated listing fetch aborts the refresh: `setArticles` is
never reached (lines 362-365, 375), so both indexes are untouched and every
subsequent read serves the index contents from before the failed attempt. -/
theorem c1_failed_listing_preserves_indexes (r : Remote) (h : fetchFails r) :
    ∀ (b : Blog) (t now : Int) (id : String),
      (loadArticles r t b).articles = b.articles ∧
      (loadArticles r t b).articlesYear = b.articlesYear ∧
      (GetArticle r now b id).1 = (lookupA b.articles id).getD zeroArticle ∧
      (GetArticles r now b).1 = b.articlesYear ∧
      (GetLatestArticles r now b).1 = latestLoop b.articles 0 := by
  intro b t now id
  unfold fetchFails at h
  have hload : ∀ t' : Int, (loadArticles r t' b).articles = b.articles ∧
      (loadArticles r t' b).articlesYear = b.articlesYear := by
    intro t'
    simp [loadArticles, h]
  refine ⟨(hload t).1, (hload t).2, ?_, ?_, ?_⟩ <;>
    by_cases hc : b.nextUpdate < now <;>
      simp [GetArticle, GetArticles, GetLatestArticles, refreshIfRequired, hc,
        (hload now).1, (hload now).2]

/-- Witness for C1 at a concrete failing remote and concrete cache state. -/
theorem c1_failed_listing_preserves_indexes_witness :
    (loadArticles rFail 0 bCex).articles = bCex.articles ∧
    (loadArticles rFail 0 bCex).articlesYear = bCex.articlesYear ∧
    (GetArticle rFail 10 bCex "a").1 = (lookupA bCex.articles "a").getD zeroArticle ∧
    (GetArticles rFail 10 bCex).1 = bCex.articlesYear ∧
    (GetLatestArticles rFail 10 bCex).1 = latestLoop bCex.articles 0 :=
  c1_failed_listing_preserves_indexes rFail rfl bCex 0 10 "a"

/-- C3 (code bug evidence): with four cached articles, `GetLatestArticles`
returns four of them, one more than `maxLatestArticles = 3`, because the loop
at lines 337-344 breaks only after `i` has been incremented past the bound. -/
theorem c3_latest_overrun :
    maxLatestArticles = 3 ∧ ((GetLatestArticles r0 0 b4).1).length = 4 :=
  ⟨rfl, rfl⟩

/-- C4 (counterexample): a read arriving exactly at the stored deadline
(instant 5) performs no refresh, because line 451 compares with
`Before`, a strict inequality; the claim demands a refresh at the deadline. -/
theorem c4_counterexample :
    bCex.nextUpdate = 5 ∧ (GetArticle r0 5 bCex "a").2.2 = false :=
  ⟨rfl, rfl⟩

/-- C4 (amended): a read strictly before or exactly at the stored deadline
performs no refresh and leaves the state untouched; a read strictly after the
deadline performs exactly one refresh attempt (`loadArticles` once). -/
theorem c4_read_refresh_boundary (r : Remote) (b : Blog) (now : Int) (id : String) :
    (now ≤ b.nextUpdate →
      refreshIfRequired r now b = (b, false) ∧
      GetArticle r now b id = ((lookupA b.articles id).getD zeroArticle, b, false) ∧
      GetArticles r now b = (b.articlesYear, b, false) ∧
      GetLatestArticles r now b = (latestLoop b.articles 0, b, false)) ∧
    (b.nextUpdate < now →
      refreshIfRequired r now b = (loadArticles r now b, true) ∧
      (GetArticle r now b id).2 = (loadArticles r now b, true) ∧
      (GetArticles r now b).2 = (loadArticles r now b, true) ∧
      (GetLatestArticles r now b).2 = (loadArticles r now b, true)) := by
  constructor
  · intro h
    simp [GetArticle, GetArticles, GetLatestArticles, refreshIfRequired, not_lt.mpr h]
  · intro h
    simp [GetArticle, GetArticles, GetLatestArticles, refreshIfRequired, h]

/-- Witness for C4 (amended) at the deadline and strictly after it. -/
theorem c4_read_refresh_boundary_witness :
    (refreshIfRequired r0 5 bCex = (bCex, false)) ∧
    (refreshIfRequired r0 6 bCex = (loadArticles r0 6 bCex, true)) :=
  ⟨((c4_read_refresh_boundary r0 bCex 5 "a").1 (by decide)).1,
   ((c4_read_refresh_boundary r0 bCex 6 "a").2 (by decide)).1⟩

/-- C5 (amended, index half): refreshing twice against an unchanged remote is
idempotent on the indexes — a successful refresh installs an index computed
from the remote alone, and a failed one changes nothing. -/
theorem c5_refresh_idempotent (r : Remote) (t1 t2 : Int) (b : Blog) :
    (loadArticles r t2 (loadArticles r t1 b)).articles = (loadArticles r t1 b).articles ∧
    (loadArticles r t2 (loadArticles r t1 b)).articlesYear =
      (loadArticles r t1 b).articlesYear := by
  by_cases h : (fetchPages r.pages []).2 <;> simp [loadArticles, h, setArticles]

/-- C5 (counterexample): `downloadAttachments` consults the disk only to
create the per-article directory; the attachment `f.png` of article `A` is
already on disk, yet the refresh downloads it again. -/
theorem c5_counterexample :
    ("A", "f.png".toList) ∈ cexDisk ∧
    downloadActions "A" cexContent cexDisk =
      [("https://h/api/v1/content/f.png".toList, "A", "f.png".toList)] :=
  ⟨List.mem_singleton.mpr rfl, rfl⟩

/-- C9. The deadline stored after any refresh attempt, successful or failed,
is the end-of-attempt instant plus one hour (line 384 runs unconditionally),
and no read within that hour triggers another refresh. -/
theorem c9_deadline_after_refresh (r : Remote) (t : Int) (b : Blog) :
    (loadArticles r t b).nextUpdate = t + blogCacheTime ∧
    ∀ now : Int, now ≤ t + blogCacheTime →
      (refreshIfRequired r now (loadArticles r t b)).2 = false := by
  have hn : (loadArticles r t b).nextUpdate = t + blogCacheTime := rfl
  refine ⟨hn, ?_⟩
  intro now h
  simp [refreshIfRequired, hn, not_lt.mpr h]

/-- Witness for C9 at a concrete remote, instant and state. -/
theorem c9_deadline_after_refresh_witness :
    (loadArticles rFail 0 bCex).nextUpdate = 0 + blogCacheTime ∧
    (refreshIfRequired rFail 3600 (loadArticles rFail 0 bCex)).2 = false :=
  ⟨(c9_deadline_after_refresh rFail 0 bCex).1,
   (c9_deadline_after_refresh rFail 0 bCex).2 3600 (by decide)⟩

theorem lookupA_mem {m : ArticleMap} {k : String} {a : Article}
    (h : lookupA m k = some a) : (k, a) ∈ m := by
  induction m with
  | nil => simp [lookupA] at h
  | cons p t ih =>
    obtain ⟨k', v'⟩ := p
    by_cases hk : k' = k
    · subst hk
      simp [lookupA] at h
      simp [h]
    · simp [lookupA, hk] at h
      exact List.mem_cons_of_mem _ (ih h)

theorem mem_lookupA {m : ArticleMap} (hn : (keysOf m).Nodup) {k : String} {a : Article}
    (h : (k, a) ∈ m) : lookupA m k = some a := by
  induction m with
  | nil => simp at h
  | cons p t ih =>
    obtain ⟨k', v'⟩ := p
    simp only [keysOf, List.map_cons, List.nodup_cons] at hn
    rcases List.mem_cons.mp h with h1 | h1
    · obtain ⟨rfl, rfl⟩ := Prod.mk.injEq .. ▸ h1
      simp [lookupA]
    · have hne : k' ≠ k := by
        rintro rfl
        exact hn.1 (List.mem_map.mpr ⟨(k', a), h1, rfl⟩)
      simpa [lookupA, hne] using ih hn.2 h1

theorem mem_insertA {m : ArticleMap} {k : String} {v : Article} :
    ∀ p ∈ insertA m k v, p = (k, v) ∨ p ∈ m := by
  induction m with
  | nil => intro p hp; simp [insertA] at hp; simp [hp]
  | cons q t ih =>
    intro p hp
    obtain ⟨k', v'⟩ := q
    by_cases hk : k' = k
    · simp [insertA, hk] at hp
      rcases hp with hp | hp
      · left; simp [hp]
      · right; exact List.mem_cons_of_mem _ hp
    · simp only [insertA, if_neg hk] at hp
      rcases List.mem_cons.mp hp with hp | hp
      · right; simp [hp]
      · rcases ih p hp with h1 | h1
        · left; exact h1
        · right; exact List.mem_cons_of_mem _ h1

theorem mem_keysOf_insertA {m : ArticleMap} {k x : String} {v : Article}
    (h : x ∈ keysOf (insertA m k v)) : x = k ∨ x ∈ keysOf m := by
  simp only [keysOf, List.mem_map] at h
  obtain ⟨p, hp, rfl⟩ := h
  rcases mem_insertA p hp with h1 | h1
  · left; simp [h1]
  · right; exact List.mem_map.mpr ⟨p, h1, rfl⟩

theorem keysOf_insertA_nodup {m : ArticleMap} (hn : (keysOf m).Nodup)
    (k : String) (v : Article) : (keysOf (insertA m k v)).Nodup := by
  induction m with
  | nil => simp [insertA, keysOf]
  | cons q t ih =>
    obtain ⟨k', v'⟩ := q
    simp only [keysOf, List.map_cons, List.nodup_cons] at hn
    by_cases hk : k' = k
    · subst hk
      simpa [insertA, keysOf] using hn
    · simp only [insertA, if_neg hk, keysOf, List.map_cons, List.nodup_cons]
      refine ⟨?_, ih hn.2⟩
      intro hmem
      rcases mem_keysOf_insertA hmem with h1 | h1
      · exact hk h1
      · exact hn.1 h1

theorem goodMap_insertA {m : ArticleMap} (h : goodMap m) (a : Article) :
    goodMap (insertA m a.id a) := by
  refine ⟨keysOf_insertA_nodup h.1 _ _, ?_⟩
  intro p hp
  rcases mem_insertA p hp with h1 | h1
  · simp [h1]
  · exact h.2 p h1

theorem goodMap_insertAll {m : ArticleMap} (h : goodMap m) (page : List Article) :
    goodMap (insertAll m page) := by
  induction page generalizing m with
  | nil => exact h
  | cons a t ih => exact ih (goodMap_insertA h a)

theorem goodMap_fetchPages (ps : List (Option (List Article))) {m : ArticleMap}
    (h : goodMap m) : goodMap (fetchPages ps m).1 := by
  induction ps generalizing m with
  | nil => exact h
  | cons p t ih =>
    cases p with
    | none => exact h
    | some page =>
      by_cases hp : page.isEmpty <;>
        simp only [fetchPages, hp, if_pos, if_neg, Bool.false_eq_true,
          not_false_eq_true, reduceIte]
      · exact goodMap_insertAll h page
      · exact ih (goodMap_insertAll h page)

theorem keysOf_ingest (r : Remote) (m : ArticleMap) : keysOf (ingest r m) = keysOf m := by
  simp [keysOf, ingest]

theorem goodMap_ingest {m : ArticleMap} (h : goodMap m) (r : Remote) :
    goodMap (ingest r m) := by
  refine ⟨by rw [keysOf_ingest]; exact h.1, ?_⟩
  intro p hp
  simp only [ingest, List.mem_map] at hp
  obtain ⟨q, hq, rfl⟩ := hp
  exact h.2 q hq

theorem lookupA_ingest (r : Remote) (m : ArticleMap) (k : String) :
    lookupA (ingest r m) k =
      (lookupA m k).map (fun a => { a with latestArticleContent := loadArticle r a }) := by
  induction m with
  | nil => simp [ingest, lookupA]
  | cons p t ih =>
    obtain ⟨k', v'⟩ := p
    by_cases hk : k' = k
    · simp [ingest, lookupA, hk]
    · simp only [ingest, List.map_cons, lookupA, if_neg hk]
      simpa [ingest] using ih

theorem mem_yearsOf_bucketAppend {acc : YearMap} {y x : Int} {a : Article}
    (h : x ∈ yearsOf (bucketAppend acc y a)) : x = y ∨ x ∈ yearsOf acc := by
  induction acc with
  | nil => simp [bucketAppend, yearsOf] at h; simp [h]
  | cons q t ih =>
    obtain ⟨y', vs⟩ := q
    by_cases hy : y' = y
    · subst hy
      simpa [bucketAppend, yearsOf] using h
    · simp only [bucketAppend, if_neg hy, yearsOf, List.map_cons, List.mem_cons] at h
      rcases h with h | h
      · right; simp [yearsOf, h]
      · rcases ih h with h1 | h1
        · left; exact h1
        · right; simp [yearsOf] at h1 ⊢; exact Or.inr h1

theorem yearsOf_bucketAppend_nodup {acc : YearMap} (hn : (yearsOf acc).Nodup)
    (y : Int) (a : Article) : (yearsOf (bucketAppend acc y a)).Nodup := by
  induction acc with
  | nil => simp [bucketAppend, yearsOf]
  | cons q t ih =>
    obtain ⟨y', vs⟩ := q
    simp only [yearsOf, List.map_cons, List.nodup_cons] at hn
    by_cases hy : y' = y
    · subst hy
      simpa [bucketAppend, yearsOf] using hn
    · simp only [bucketAppend, if_neg hy, yearsOf, List.map_cons, List.nodup_cons]
      refine ⟨?_, ih hn.2⟩
      intro hmem
      rcases mem_yearsOf_bucketAppend hmem with h1 | h1
      · exact hy h1
      · exact hn.1 h1

theorem lookupY_bucketAppend_same (acc : YearMap) (y : Int) (a : Article) :
    lookupY (bucketAppend acc y a) y = some ((lookupY acc y).getD [] ++ [a]) := by
  induction acc with
  | nil => simp [bucketAppend, lookupY]
  | cons q t ih =>
    obtain ⟨y', vs⟩ := q
    by_cases hy : y' = y <;> simp [bucketAppend, lookupY, hy, ih]

theorem lookupY_bucketAppend_ne {y y' : Int} (h : y' ≠ y) (acc : YearMap) (a : Article) :
    lookupY (bucketAppend acc y a) y' = lookupY acc y' := by
  induction acc with
  | nil => simp [bucketAppend, lookupY, Ne.symm h]
  | cons q t ih =>
    obtain ⟨y'', vs⟩ := q
    by_cases hy : y'' = y
    · subst hy
      simp [bucketAppend, lookupY, Ne.symm h]
    · simp [bucketAppend, lookupY, hy, ih]

theorem inY_bucketAppend (acc : YearMap) (y0 y : Int) (a0 a : Article) :
    inY (bucketAppend acc y0 a0) y a ↔ inY acc y a ∨ (y = y0 ∧ a = a0) := by
  by_cases hy : y = y0
  · subst hy
    rw [show inY (bucketAppend acc y a0) y a ↔
        a ∈ (lookupY acc y).getD [] ++ [a0] from by
      simp [inY, lookupY_bucketAppend_same]]
    cases hl : lookupY acc y with
    | none => simp [inY, hl]
    | some ys => simp [inY, hl]
  · rw [show inY (bucketAppend acc y0 a0) y a ↔ inY acc y a from by
      simp [inY, lookupY_bucketAppend_ne hy]]
    simp [hy]

theorem inY_buildYear_aux (m : ArticleMap) :
    ∀ (acc : YearMap) (y : Int) (a : Article),
      inY (m.foldl (fun acc p => bucketAppend acc p.2.publishedYear p.2) acc) y a ↔
        inY acc y a ∨ ∃ k, (k, a) ∈ m ∧ a.publishedYear = y := by
  induction m with
  | nil => intro acc y a; simp
  | cons p t ih =>
    intro acc y a
    rw [List.foldl_cons, ih, inY_bucketAppend]
    constructor
    · rintro ((h | ⟨h1, h2⟩) | ⟨k, hk, hy⟩)
      · exact Or.inl h
      · exact Or.inr ⟨p.1, by simp [h2, ← h1], by simp [h2, h1]⟩
      · exact Or.inr ⟨k, List.mem_cons_of_mem _ hk, hy⟩
    · rintro (h | ⟨k, hk, hy⟩)
      · exact Or.inl (Or.inl h)
      · rcases List.mem_cons.mp hk with hk | hk
        · refine Or.inl (Or.inr ⟨?_, ?_⟩)
          · rw [← hy]; simp [← hk]
          · simp [← hk]
        · exact Or.inr ⟨k, hk, hy⟩

theorem inY_buildYear (m : ArticleMap) (y : Int) (a : Article) :
    inY (buildYear m) y a ↔ ∃ k, (k, a) ∈ m ∧ a.publishedYear = y := by
  rw [buildYear, inY_buildYear_aux]
  simp [inY, lookupY]

theorem yearsOf_buildYear_nodup (m : ArticleMap) : (yearsOf (buildYear m)).Nodup := by
  rw [buildYear]
  have : ∀ (l : ArticleMap) (acc : YearMap), (yearsOf acc).Nodup →
      (yearsOf (l.foldl (fun acc p => bucketAppend acc p.2.publishedYear p.2) acc)).Nodup := by
    intro l
    induction l with
    | nil => intro acc h; exact h
    | cons p t ih =>
      intro acc h
      exact ih _ (yearsOf_bucketAppend_nodup h _ _)
  exact this m [] (by simp [yearsOf])

theorem consistent_setArticles {m : ArticleMap} (h : goodMap m) (b : Blog) :
    Consistent (setArticles b m) := by
  refine ⟨h, ?_, ?_, ?_⟩
  · exact yearsOf_buildYear_nodup m
  · intro k a hk
    exact (inY_buildYear m a.publishedYear a).mpr ⟨k, lookupA_mem hk, rfl⟩
  · intro y ys hys a ha
    have hin : inY (buildYear m) y a := ⟨ys, hys, ha⟩
    obtain ⟨k, hk, hy⟩ := (inY_buildYear m y a).mp hin
    have hkid : k = a.id := h.2 (k, a) hk
    subst hkid
    exact ⟨hy, mem_lookupA h.1 hk⟩

theorem consistent_fields {b b' : Blog} (ha : b'.articles = b.articles)
    (hy : b'.articlesYear = b.articlesYear) (h : Consistent b) : Consistent b' := by
  unfold Consistent goodMap at *
  rw [ha, hy]
  exact h

theorem consistent_loadArticles {b : Blog} (hb : Consistent b) (r : Remote) (t : Int) :
    Consistent (loadArticles r t b) := by
  by_cases h : (fetchPages r.pages []).2
  · exact consistent_fields (by simp [loadArticles, h]) (by simp [loadArticles, h]) hb
  · have hgood : goodMap (ingest r (fetchPages r.pages []).1) :=
      goodMap_ingest (goodMap_fetchPages r.pages ⟨by simp [keysOf], by simp⟩) r
    have := consistent_setArticles hgood b
    exact consistent_fields (by simp [loadArticles, h, setArticles])
      (by simp [loadArticles, h, setArticles]) this

theorem consistent_empty_blog (t : Int) :
    Consistent { articles := [], articlesYear := [], nextUpdate := t } := by
  refine ⟨⟨by simp [keysOf], by simp⟩, by simp [yearsOf], ?_, ?_⟩
  · intro k a hk; simp [lookupA] at hk
  · intro y ys hys; simp [lookupY] at hys

theorem consistent_refreshIfRequired {b : Blog} (hb : Consistent b) (r : Remote) (now : Int) :
    Consistent (refreshIfRequired r now b).1 := by
  by_cases hc : b.nextUpdate < now <;> simp [refreshIfRequired, hc]
  · exact consistent_loadArticles hb r now
  · exact hb

theorem consistent_of_reachable {r : Remote} {b : Blog} (h : Reachable r b) :
    Consistent b := by
  induction h with
  | new t => exact consistent_loadArticles (consistent_empty_blog _) r t
  | getArticle b now id _ ih => exact consistent_refreshIfRequired ih r now
  | getArticles b now _ ih => exact consistent_refreshIfRequired ih r now
  | getLatest b now _ ih => exact consistent_refreshIfRequired ih r now

/-- C2. After every public operation the two indexes are mutually consistent:
the id index is keyed by id with unique keys, each of its articles sits in the
bucket of its publication year, every bucket member has that year and is in
the id index under its id, and bucket years are pairwise distinct (so each
article is in exactly one bucket). -/
theorem c2_indexes_consistent (r : Remote) (b : Blog) (h : Reachable r b) :
    Consistent b :=
  consistent_of_reachable h

/-- Witness for C2 on the state freshly created by `NewBlog`. -/
theorem c2_indexes_consistent_witness : Consistent (NewBlog r0 0) :=
  c2_indexes_consistent r0 (NewBlog r0 0) (Reachable.new 0)

/-- C8. When the listing succeeds, every fetched article is in the rebuilt
index; an article whose content fetch failed is ingested with an absent
latest-content pointer, and one whose fetch succeeded carries the rewritten
content — a single content failure never aborts the refresh. -/
theorem c8_content_failure_isolated (r : Remote) (h : (fetchPages r.pages []).2 = false)
    (t : Int) (b : Blog) :
    ∀ k a, lookupA (fetchPages r.pages []).1 k = some a →
      lookupA (loadArticles r t b).articles k =
        some { a with latestArticleContent := loadArticle r a } ∧
      (r.getArticle a.id ((a.latestArticleContent.map (fun c => c.languageId)).getD "") =
          none → loadArticle r a = none) ∧
      (∀ c, r.getArticle a.id
          ((a.latestArticleContent.map (fun c => c.languageId)).getD "") = some c →
        loadArticle r a =
          some { c with content := scanAttach a.id.toList (scanLinks c.content) }) := by
  intro k a hk
  refine ⟨?_, ?_, ?_⟩
  · simp [loadArticles, h, setArticles, lookupA_ingest, hk]
  · intro hf; simp [loadArticle, hf]
  · intro c hf; simp [loadArticle, hf]

/-- Witness for C8: a two-article listing where the content fetch fails for
article `a` and succeeds for article `b`. -/
theorem c8_content_failure_isolated_witness :
    lookupA (loadArticles r1 0 bCex).articles "a" =
      some { mkArt "a" 2020 with latestArticleContent := loadArticle r1 (mkArt "a" 2020) } ∧
    loadArticle r1 (mkArt "a" 2020) = none :=
  ⟨(c8_content_failure_isolated r1 rfl 0 bCex "a" (mkArt "a" 2020) rfl).1,
   (c8_content_failure_isolated r1 rfl 0 bCex "a" (mkArt "a" 2020) rfl).2.1 rfl⟩

/-- C10. The id index is keyed by the articles' own ids, so `GetArticle`
returns either the zero-valued article or an article whose `Id` field equals
the requested id, for every id and every reachable cache state. -/
theorem c10_get_article_keyed (r : Remote) (b : Blog) (h : Reachable r b)
    (now : Int) (id : String) :
    (GetArticle r now b id).1 = zeroArticle ∨ ((GetArticle r now b id).1).id = id := by
  have hb' : Consistent (refreshIfRequired r now b).1 :=
    consistent_refreshIfRequired (consistent_of_reachable h) r now
  cases hl : lookupA (refreshIfRequired r now b).1.articles id with
  | none => left; simp [GetArticle, hl]
  | some a =>
    right
    have := hb'.1.2 (id, a) (lookupA_mem hl)
    simp [GetArticle, hl]
    exact this.symm

/-- Witness for C10 on the state freshly created by `NewBlog`. -/
theorem c10_get_article_keyed_witness :
    (GetArticle r0 5 (NewBlog r0 0) "x").1 = zeroArticle ∨
    ((GetArticle r0 5 (NewBlog r0 0) "x").1).id = "x" :=
  c10_get_article_keyed r0 (NewBlog r0 0) (Reachable.new 0) 5 "x"

/-- C6 (counterexample): the body contains `href="/read/abc"`, so the claim
applies; after ingestion the textual occurrence `/read/b` outside any `href`
attribute survives, so the rewritten content still contains `/read/`. -/
theorem c6_counterexample :
    hasSub c6content ("href=\"/read/abc\"".toList) = true ∧
    hasSub (scanAttach "A".toList (scanLinks c6content)) ("href=\"/blog/abc\"".toList) = true ∧
    hasSub (scanAttach "A".toList (scanLinks c6content)) ("/read/".toList) = true :=
  ⟨rfl, rfl, rfl⟩

/-- C7 (counterexample): the body contains `src="https://h/api/v1/content/a.png"`,
so the claim applies; that reference is rewritten, but the textual URL
`https://h/api/v1/content/b.png` outside any attribute survives, so a
reference to the remote content-serving endpoint remains after ingestion. -/
theorem c7_counterexample :
    hasSub c7content ("src=\"https://h/api/v1/content/a.png\"".toList) = true ∧
    hasSub (scanAttach "I".toList (scanLinks c7content))
      ("src=\"/static/blog/I/a.png\"".toList) = true ∧
    hasSub (scanAttach "I".toList (scanLinks c7content)) contentPat = true :=
  ⟨rfl, rfl, rfl⟩

theorem ciStarts_append_self (p t : List Char) : ciStarts p (p ++ t) = true := by
  induction p with
  | nil => rfl
  | cons c cs ih => simp [ciStarts, ih]

theorem ciStarts_append_of_le (pat : List Char) :
    ∀ (xs ys : List Char), pat.length ≤ xs.length →
      ciStarts pat (xs ++ ys) = ciStarts pat xs := by
  induction pat with
  | nil => intro xs ys _; rfl
  | cons pc ps ih =>
    intro xs ys h
    cases xs with
    | nil => simp at h
    | cons x xt =>
      simp only [List.cons_append, ciStarts]
      congr 1
      exact ih xt ys (by simpa using h)

theorem takeWhile_noquote (A s' : List Char) (hA : ∀ c ∈ A, c ≠ '"') :
    (A ++ '"' :: s').takeWhile (fun c => c ≠ '"') = A := by
  induction A with
  | nil => simp
  | cons a as ih =>
    have ha : a ≠ '"' := hA a (List.mem_cons_self a as)
    simp [List.takeWhile_cons, ha]
    simpa using ih (fun c hc => hA c (List.mem_cons_of_mem _ hc))

theorem dropWhile_noquote (A s' : List Char) (hA : ∀ c ∈ A, c ≠ '"') :
    (A ++ '"' :: s').dropWhile (fun c => c ≠ '"') = '"' :: s' := by
  induction A with
  | nil => simp
  | cons a as ih =>
    have ha : a ≠ '"' := hA a (List.mem_cons_self a as)
    simp [List.dropWhile_cons, ha]
    simpa using ih (fun c hc => hA c (List.mem_cons_of_mem _ hc))

theorem tryMatchLink_head (A s : List Char) (hne : A ≠ []) (hA : ∀ c ∈ A, c ≠ '"') :
    tryMatchLink (linkPat ++ (A ++ '"' :: s)) = some A := by
  unfold tryMatchLink
  rw [if_pos (ciStarts_append_self linkPat (A ++ '"' :: s))]
  have hdrop : (linkPat ++ (A ++ '"' :: s)).drop 12 = A ++ '"' :: s := by
    rw [show (12 : Nat) = linkPat.length from rfl, List.drop_left]
  rw [hdrop, takeWhile_noquote A s hA, dropWhile_noquote A s hA]
  cases A with
  | nil => exact absurd rfl hne
  | cons a as => rfl

theorem scanLinksF_irrel :
    ∀ (f1 f2 : Nat) (s : List Char), s.length ≤ f1 → s.length ≤ f2 →
      scanLinksF f1 s = scanLinksF f2 s := by
  intro f1
  induction f1 with
  | zero =>
    intro f2 s h1 _
    have hs : s = [] := List.eq_nil_of_length_eq_zero (Nat.le_zero.mp h1)
    subst hs
    cases f2 <;> rfl
  | succ n ih =>
    intro f2 s h1 h2
    cases s with
    | nil => cases f2 <;> rfl
    | cons c rest =>
      cases f2 with
      | zero => simp at h2
      | succ m =>
        cases h : tryMatchLink (c :: rest) with
        | none =>
          simp only [scanLinksF, h]
          rw [ih m rest (by simp at h1; omega) (by simp at h2; omega)]
        | some abc =>
          simp only [scanLinksF, h]
          rw [ih m (rest.drop (12 + abc.length))
            (by simp at h1 ⊢; omega) (by simp at h2 ⊢; omega)]

theorem scanLinks_cons_none {c : Char} {rest : List Char}
    (h : tryMatchLink (c :: rest) = none) :
    scanLinks (c :: rest) = c :: scanLinks rest := by
  unfold scanLinks
  simp only [List.length_cons, scanLinksF, h]

theorem scanLinks_match {s A : List Char} (h : tryMatchLink s = some A) :
    scanLinks s = blogRepl A ++ scanLinks (s.drop (13 + A.length)) := by
  cases s with
  | nil =>
    rw [show tryMatchLink ([] : List Char) = none from rfl] at h
    exact Option.noConfusion h
  | cons c rest =>
    unfold scanLinks
    simp only [List.length_cons, scanLinksF, h]
    congr 1
    have hd : (c :: rest).drop (13 + A.length) = rest.drop (12 + A.length) := by
      rw [show 13 + A.length = (12 + A.length) + 1 from by omega]
      rfl
    rw [hd]
    exact scanLinksF_irrel rest.length (rest.drop (12 + A.length)).length
      (rest.drop (12 + A.length)) (by simp) le_rfl

theorem scanLinks_walk (p rest : List Char)
    (hp : ∀ i < p.length, tryMatchLink ((p ++ rest).drop i) = none) :
    scanLinks (p ++ rest) = p ++ scanLinks rest := by
  induction p with
  | nil => simp
  | cons c p' ih =>
    have h0 : tryMatchLink (c :: (p' ++ rest)) = none := by
      have := hp 0 (by simp)
      simpa using this
    have hih : scanLinks (p' ++ rest) = p' ++ scanLinks rest := by
      apply ih
      intro i hi
      have := hp (i + 1) (by simp; omega)
      simpa using this
    rw [List.cons_append, scanLinks_cons_none h0, hih]
    rfl

/-- C6 (amended): every occurrence of `href="/read/ABC"` (`ABC` nonempty and
quote-free) at which the leftmost-match scan of `linkRegex` arrives — no match
of the regex starts inside the text `p` before it — is replaced in place by
`href="/blog/ABC"`; occurrences of `/read/` outside such attributes survive
(see the counterexample). -/
theorem c6_link_rewrite (p A s : List Char) (hne : A ≠ []) (hA : ∀ c ∈ A, c ≠ '"')
    (hp : ∀ i < p.length,
      tryMatchLink ((p ++ (linkPat ++ (A ++ '"' :: s))).drop i) = none) :
    scanLinks (p ++ (linkPat ++ (A ++ '"' :: s))) =
      p ++ ("href=\"/blog/".toList ++ (A ++ '"' :: scanLinks s)) := by
  rw [scanLinks_walk p _ hp, scanLinks_match (tryMatchLink_head A s hne hA)]
  have hd : (linkPat ++ (A ++ '"' :: s)).drop (13 + A.length) = s := by
    have hassoc : linkPat ++ (A ++ '"' :: s) = (linkPat ++ A ++ ['"']) ++ s := by simp
    rw [hassoc, show 13 + A.length = (linkPat ++ A ++ ['"']).length from by
      simp [show linkPat.length = 12 from rfl]; omega]
    exact List.drop_left _ _
  rw [hd]
  simp [blogRepl]

/-- Witness for C6 (amended) on a concrete body. -/
theorem c6_link_rewrite_witness :
    scanLinks ("<p>".toList ++ (linkPat ++ ("abc".toList ++ '"' :: []))) =
      "<p>".toList ++ ("href=\"/blog/".toList ++ ("abc".toList ++ '"' :: scanLinks [])) :=
  c6_link_rewrite ("<p>".toList) ("abc".toList) [] (by decide) (by decide) (by decide)

theorem matchG3_lt {r g3 rest : List Char} (h : matchG3 r = some (g3, rest)) :
    rest.length < r.length := by
  revert h
  unfold matchG3
  cases htw : r.takeWhile (fun c => c ≠ '"') with
  | nil => intro h; simp at h
  | cons a tw =>
    cases hdw : r.dropWhile (fun c => c ≠ '"') with
    | nil => intro h; simp at h
    | cons d rest' =>
      intro h
      simp only [Option.some.injEq, Prod.mk.injEq] at h
      obtain ⟨-, rfl⟩ := h
      have hlen := congrArg List.length
        (List.takeWhile_append_dropWhile (p := fun c => decide (c ≠ '"')) (l := r))
      rw [htw, hdw] at hlen
      simp at hlen
      omega

theorem findSplit_lt {r : List Char} :
    ∀ {acc g2 g3 rest : List Char}, findSplit acc r = some (g2, g3, rest) →
      rest.length < r.length := by
  induction r with
  | nil => intro acc g2 g3 rest h; simp [findSplit] at h
  | cons c r' ih =>
    intro acc g2 g3 rest h
    simp only [findSplit] at h
    cases hsh : splitHere acc (c :: r') with
    | some res =>
      rw [hsh] at h
      simp only [Option.some.injEq] at h
      subst h
      revert hsh
      unfold splitHere
      cases acc with
      | nil => intro hsh; simp at hsh
      | cons a as =>
        cases hci : ciStarts contentPat (c :: r') with
        | false => intro hsh; simp at hsh
        | true =>
          cases hg3 : matchG3 ((c :: r').drop 16) with
          | none => intro hsh; simp [hg3] at hsh
          | some pr =>
            obtain ⟨pg3, prest⟩ := pr
            intro hsh
            simp [hg3] at hsh
            obtain ⟨-, -, h3⟩ := hsh
            have hlt := matchG3_lt hg3
            subst h3
            simp only [List.length_drop, List.length_cons] at hlt ⊢
            omega
    | none =>
      rw [hsh] at h
      by_cases hc : c = '"'
      · simp [hc] at h
      · simp only [hc, if_false, ite_false] at h
        have := ih h
        simp at this ⊢
        omega

theorem tryTag_lt {tag s g1 g2 g3 rest : List Char}
    (h : tryTag tag s = some (g1, g2, g3, rest)) : rest.length < s.length := by
  revert h
  unfold tryTag
  by_cases hci : ciStarts tag s = true
  · rw [if_pos hci]
    cases hd : s.drop tag.length with
    | nil => intro h; simp at h
    | cons c1 t1 =>
      cases t1 with
      | nil => intro h; simp at h
      | cons c2 r =>
        by_cases h1 : c1 = '='
        · subst h1
          by_cases h2 : c2 = '"'
          · subst h2
            cases hfs : findSplit [] r with
            | none => intro h; simp [hfs] at h
            | some pr =>
              obtain ⟨pg2, pg3, prest⟩ := pr
              intro h
              simp only [hfs, if_true, reduceIte, Option.some.injEq, Prod.mk.injEq] at h
              obtain ⟨-, -, -, h4⟩ := h
              subst h4
              have hlt : prest.length < r.length := findSplit_lt hfs
              have hdl := congrArg List.length hd
              simp only [List.length_drop, List.length_cons] at hdl
              omega
          · intro h; simp [h2] at h
        · intro h; simp [h1] at h
  · rw [if_neg hci]
    intro h
    simp at h

theorem matchAttachAt_lt {s g1 g2 g3 rest : List Char}
    (h : matchAttachAt s = some (g1, g2, g3, rest)) : rest.length < s.length := by
  revert h
  unfold matchAttachAt
  cases h1 : tryTag ("href".toList) s with
  | some res =>
    intro h
    simp only [Option.some.injEq] at h
    subst h
    exact tryTag_lt h1
  | none =>
    intro h
    exact tryTag_lt h

theorem scanAttachF_irrel :
    ∀ (f1 f2 : Nat) (id s : List Char), s.length ≤ f1 → s.length ≤ f2 →
      scanAttachF f1 id s = scanAttachF f2 id s := by
  intro f1
  induction f1 with
  | zero =>
    intro f2 id s h1 _
    have hs : s = [] := List.eq_nil_of_length_eq_zero (Nat.le_zero.mp h1)
    subst hs
    cases f2 <;> rfl
  | succ n ih =>
    intro f2 id s h1 h2
    cases s with
    | nil => cases f2 <;> rfl
    | cons c rest =>
      cases f2 with
      | zero => simp at h2
      | succ m =>
        cases h : matchAttachAt (c :: rest) with
        | none =>
          simp only [scanAttachF, h]
          rw [ih m id rest (by simp at h1; omega) (by simp at h2; omega)]
        | some res =>
          obtain ⟨g1, g2, g3, rest'⟩ := res
          have hlt := matchAttachAt_lt h
          simp only [scanAttachF, h]
          rw [ih m id rest' (by simp at h1 hlt; omega) (by simp at h2 hlt; omega)]

theorem scanAttach_cons_none {c : Char} {rest : List Char}
    (h : matchAttachAt (c :: rest) = none) :
    ∀ idl : List Char, scanAttach idl (c :: rest) = c :: scanAttach idl rest := by
  intro idl
  unfold scanAttach
  simp only [List.length_cons, scanAttachF, h]

theorem scanAttach_match {s g1 g2 g3 rest : List Char}
    (h : matchAttachAt s = some (g1, g2, g3, rest)) (idl : List Char) :
    scanAttach idl s = staticRepl idl g1 g3 ++ scanAttach idl rest := by
  cases s with
  | nil =>
    rw [show matchAttachAt ([] : List Char) = none from rfl] at h
    exact Option.noConfusion h
  | cons c rest0 =>
    unfold scanAttach
    simp only [List.length_cons, scanAttachF, h]
    congr 1
    have hlt := matchAttachAt_lt h
    exact scanAttachF_irrel rest0.length rest.length idl rest
      (by simp at hlt; omega) le_rfl

theorem scanAttach_walk (idl p rest : List Char)
    (hp : ∀ i < p.length, matchAttachAt ((p ++ rest).drop i) = none) :
    scanAttach idl (p ++ rest) = p ++ scanAttach idl rest := by
  induction p with
  | nil => simp
  | cons c p' ih =>
    have h0 : matchAttachAt (c :: (p' ++ rest)) = none := by
      have := hp 0 (by simp)
      simpa using this
    have hih : scanAttach idl (p' ++ rest) = p' ++ scanAttach idl rest := by
      apply ih
      intro i hi
      have := hp (i + 1) (by simp; omega)
      simpa using this
    rw [List.cons_append, scanAttach_cons_none h0 idl, hih]
    rfl

theorem matchG3_head (X s : List Char) (hXne : X ≠ []) (hX : ∀ c ∈ X, c ≠ '"') :
    matchG3 (X ++ '"' :: s) = some (X, s) := by
  unfold matchG3
  rw [takeWhile_noquote X s hX, dropWhile_noquote X s hX]
  cases X with
  | nil => exact absurd rfl hXne
  | cons a as => rfl

theorem splitHere_noPat {acc r : List Char} (h : ciStarts contentPat r = false) :
    splitHere acc r = none := by
  cases acc with
  | nil => rfl
  | cons a as => simp [splitHere, h]

theorem splitHere_hit {acc : List Char} (hne : acc ≠ []) (X s : List Char)
    (hXne : X ≠ []) (hX : ∀ c ∈ X, c ≠ '"') :
    splitHere acc (contentPat ++ (X ++ '"' :: s)) = some (acc, X, s) := by
  cases acc with
  | nil => exact absurd rfl hne
  | cons a as =>
    have hdrop : (contentPat ++ (X ++ '"' :: s)).drop 16 = X ++ '"' :: s := by
      rw [show (16 : Nat) = contentPat.length from rfl, List.drop_left]
    simp [splitHere, ciStarts_append_self, hdrop, matchG3_head X s hXne hX]

theorem findSplit_hit {acc r : List Char} {res : List Char × List Char × List Char}
    (hne : r ≠ []) (h : splitHere acc r = some res) : findSplit acc r = some res := by
  cases r with
  | nil => exact absurd rfl hne
  | cons c r' => simp [findSplit, h]

theorem findSplit_step {acc r' : List Char} {c : Char}
    (h : splitHere acc (c :: r') = none) (hc : c ≠ '"') :
    findSplit acc (c :: r') = findSplit (acc ++ [c]) r' := by
  simp [findSplit, h, hc]

theorem findSplit_run (X s : List Char) (hXne : X ≠ []) (hX : ∀ c ∈ X, c ≠ '"') :
    ∀ (host acc : List Char), acc ++ host ≠ [] →
      (∀ c ∈ host, c ≠ '"') →
      (∀ i < host.length, ciStarts contentPat ((host ++ contentPat).drop i) = false) →
      findSplit acc (host ++ (contentPat ++ (X ++ '"' :: s))) = some (acc ++ host, X, s) := by
  intro host
  induction host with
  | nil =>
    intro acc hne _ _
    have hc : splitHere acc (contentPat ++ (X ++ '"' :: s)) = some (acc, X, s) :=
      splitHere_hit (by simpa using hne) X s hXne hX
    have hr : contentPat ++ (X ++ '"' :: s) ≠ [] := by
      intro hcontra
      have := congrArg List.length hcontra
      simp at this
    simp only [List.nil_append, List.append_nil]
    exact findSplit_hit hr hc
  | cons ch ht ih =>
    intro acc hne hq hno
    have hch : ch ≠ '"' := hq ch (List.mem_cons_self ch ht)
    have h16 : contentPat.length = 16 := rfl
    have hci : ciStarts contentPat ((ch :: ht) ++ (contentPat ++ (X ++ '"' :: s))) = false := by
      rw [show (ch :: ht) ++ (contentPat ++ (X ++ '"' :: s)) =
        ((ch :: ht) ++ contentPat) ++ (X ++ '"' :: s) from by simp]
      rw [ciStarts_append_of_le contentPat ((ch :: ht) ++ contentPat) _ (by simp; omega)]
      simpa using hno 0 (by simp)
    have hsh : splitHere acc (ch :: (ht ++ (contentPat ++ (X ++ '"' :: s)))) = none := by
      have h2 : splitHere acc ((ch :: ht) ++ (contentPat ++ (X ++ '"' :: s))) = none :=
        splitHere_noPat hci
      simpa using h2
    rw [List.cons_append, findSplit_step hsh hch]
    rw [ih (acc ++ [ch]) (by simp)
      (fun c hc => hq c (List.mem_cons_of_mem _ hc))
      (fun i hi => by
        have := hno (i + 1) (by simp; omega)
        simpa using this)]
    simp

theorem ciEqList_length : ∀ {a b : List Char}, ciEqList a b = true → a.length = b.length := by
  intro a
  induction a with
  | nil =>
    intro b h
    cases b with
    | nil => rfl
    | cons _ _ => simp [ciEqList] at h
  | cons x xs ih =>
    intro b h
    cases b with
    | nil => simp [ciEqList] at h
    | cons y ys =>
      simp only [ciEqList, Bool.and_eq_true] at h
      simp [ih h.2]

theorem ciStarts_of_ciEqList : ∀ {a b : List Char}, ciEqList a b = true →
    ∀ t : List Char, ciStarts b (a ++ t) = true := by
  intro a
  induction a with
  | nil =>
    intro b h t
    cases b with
    | nil => rfl
    | cons _ _ => simp [ciEqList] at h
  | cons x xs ih =>
    intro b h t
    cases b with
    | nil => rfl
    | cons y ys =>
      simp only [ciEqList, Bool.and_eq_true] at h
      simp only [List.cons_append, ciStarts, h.1, Bool.true_and]
      exact ih h.2 t

theorem tryTag_head {tag0 tag : List Char} (h : ciEqList tag tag0 = true)
    (r : List Char) {g2 g3 rest : List Char} (hfs : findSplit [] r = some (g2, g3, rest)) :
    tryTag tag0 (tag ++ '=' :: '"' :: r) = some (tag, g2, g3, rest) := by
  unfold tryTag
  rw [if_pos (ciStarts_of_ciEqList h _)]
  have hlen := ciEqList_length h
  rw [← hlen, List.drop_left, List.take_left]
  simp [hfs]

theorem ciEq_src_not_href {tag : List Char} (h : ciEqList tag ("src".toList) = true)
    (rest : List Char) : ciStarts ("href".toList) (tag ++ rest) = false := by
  cases tag with
  | nil => exact absurd h (by decide)
  | cons c1 t1 =>
    have h1 : c1.toLower = 's' := by
      rw [show ("src".toList) = 's' :: "rc".toList from rfl] at h
      simp only [ciEqList, Bool.and_eq_true, beq_iff_eq] at h
      simpa using h.1
    rw [show ("href".toList) = 'h' :: "ref".toList from rfl, List.cons_append]
    simp [ciStarts, h1]

theorem matchAttachAt_head (tag host X s : List Char)
    (htag : ciEqList tag ("href".toList) = true ∨ ciEqList tag ("src".toList) = true)
    (hhostne : host ≠ []) (hhost : ∀ c ∈ host, c ≠ '"')
    (hno : ∀ i < host.length, ciStarts contentPat ((host ++ contentPat).drop i) = false)
    (hXne : X ≠ []) (hX : ∀ c ∈ X, c ≠ '"') :
    matchAttachAt (tag ++ '=' :: '"' :: (host ++ (contentPat ++ (X ++ '"' :: s)))) =
      some (tag, host, X, s) := by
  have hfs : findSplit [] (host ++ (contentPat ++ (X ++ '"' :: s))) = some (host, X, s) := by
    have := findSplit_run X s hXne hX host [] (by simpa using hhostne) hhost hno
    simpa using this
  rcases htag with h | h
  · unfold matchAttachAt
    rw [tryTag_head h _ hfs]
  · unfold matchAttachAt
    have hfalse : ¬ (ciStarts ("href".toList)
        (tag ++ '=' :: '"' :: (host ++ (contentPat ++ (X ++ '"' :: s)))) = true) := by
      rw [ciEq_src_not_href h]
      simp
    have hnone : tryTag ("href".toList)
        (tag ++ '=' :: '"' :: (host ++ (contentPat ++ (X ++ '"' :: s)))) = none := by
      unfold tryTag
      rw [if_neg hfalse]
    rw [hnone, tryTag_head h _ hfs]

/-- C7 (amended): every attachment reference `src="host/api/v1/content/XYZ"`
(or with `href`; `host` nonempty, quote-free and without an internal
occurrence of `/api/v1/content/`; `XYZ` nonempty and quote-free) at which the
leftmost-match scan of `attachmentRegex` arrives — no match starts inside the
preceding text `p` — is replaced in place by
`src="/static/blog/<id>/XYZ"`; remote-endpoint URLs outside such attributes
survive (see the counterexample). -/
theorem c7_attachment_rewrite (idl p tag host X s : List Char)
    (htag : ciEqList tag ("href".toList) = true ∨ ciEqList tag ("src".toList) = true)
    (hhostne : host ≠ []) (hhost : ∀ c ∈ host, c ≠ '"')
    (hno : ∀ i < host.length, ciStarts contentPat ((host ++ contentPat).drop i) = false)
    (hXne : X ≠ []) (hX : ∀ c ∈ X, c ≠ '"')
    (hp : ∀ i < p.length, matchAttachAt
      ((p ++ (tag ++ '=' :: '"' :: (host ++ (contentPat ++ (X ++ '"' :: s))))).drop i) = none) :
    scanAttach idl (p ++ (tag ++ '=' :: '"' :: (host ++ (contentPat ++ (X ++ '"' :: s))))) =
      p ++ (staticRepl idl tag X ++ scanAttach idl s) := by
  rw [scanAttach_walk idl p _ hp]
  rw [scanAttach_match (matchAttachAt_head tag host X s htag hhostne hhost hno hXne hX) idl]

/-- Witness for C7 (amended) on a concrete body. -/
theorem c7_attachment_rewrite_witness :
    scanAttach ("I".toList) ("<p>".toList ++ ("src".toList ++ '=' :: '"' ::
        ("https://h".toList ++ (contentPat ++ ("f.png".toList ++ '"' :: []))))) =
      "<p>".toList ++ (staticRepl ("I".toList) ("src".toList) ("f.png".toList) ++
        scanAttach ("I".toList) []) :=
  c7_attachment_rewrite ("I".toList) ("<p>".toList) ("src".toList) ("https://h".toList)
    ("f.png".toList) [] (Or.inr (by decide)) (by decide) (by decide) (by decide)
    (by decide) (by decide) (@of_decide_eq_true _ (Nat.decidableBallLT _ _) rfl)

end MarvinBlum
